import Mathlib

/-!
Verification of the custom Discrete Weibull distribution and the censored
count model from `posts/tam_inference/index.qmd`.

The Python/JAX source is shallowly embedded over the real numbers: JAX
array operations on scalars become functions `ℝ → ℝ`, `jnp.clip` becomes
`min`/`max`, `jnp.power` becomes real exponentiation (`Real.rpow`),
`jnp.round` (round-half-to-even) becomes `jnpRound`, and `gammaln` becomes
`Real.log ∘ Real.Gamma`.
-/

open Real Filter
open scoped Classical

namespace DiscreteWeibull

/-- Embedding of `jnp.clip(x, a_min, a_max)`: `jnp.minimum(a_max, jnp.maximum(x, a_min))`. -/
def clip (x lo hi : ℝ) : ℝ := min hi (max lo x)

/-- Embedding of `jnp.round`: round half to even (banker's rounding), as
NumPy/JAX do, returning an integer. -/
noncomputable def jnpRound (x : ℝ) : ℤ :=
  if Int.fract x = 1 / 2 then (if Even ⌊x⌋ then ⌊x⌋ else ⌊x⌋ + 1) else round x

/-- Embedding of `DiscreteWeibull.log_prob` (source lines 66-86):
`k_eff = value + eps`, `term1 = exp(-(k_eff/alpha)^beta)`,
`term2 = exp(-((k_eff+1)/alpha)^beta)`, `pmf = term1 - term2`,
`pmf_clipped = clip(pmf, a_min=eps)`, returns `log(pmf_clipped)`. -/
noncomputable def log_prob (alpha beta eps value : ℝ) : ℝ :=
  let k_eff := value + eps
  let term1 := Real.exp (-((k_eff / alpha) ^ beta))
  let term2 := Real.exp (-(((k_eff + 1) / alpha) ^ beta))
  let pmf := term1 - term2
  let pmf_clipped := max pmf eps
  Real.log pmf_clipped

/-- Embedding of `DiscreteWeibull.cdf` (source lines 104-108):
`1 - exp(-((value+1)/alpha)^beta)`. -/
noncomputable def cdf (alpha beta value : ℝ) : ℝ :=
  1 - Real.exp (-(((value + 1) / alpha) ^ beta))

/-- Embedding of `DiscreteWeibull.inverse_discrete_weibull` (source lines 88-93):
`p_clipped = clip(p_uniform, a_min=eps, a_max=1-eps)`,
`k_continuous = alpha * (-log(1 - p_clipped))**(1/beta) - 1`, then rounds. -/
noncomputable def inverse_discrete_weibull (alpha beta eps p_uniform : ℝ) : ℝ :=
  let p_clipped := clip p_uniform eps (1 - eps)
  alpha * (-Real.log (1 - p_clipped)) ^ (1 / beta) - 1

/-- Embedding of `DiscreteWeibull.sample` (source lines 95-102) for a single
uniform draw `u`: `jnp.maximum(1, jnp.round(inverse_discrete_weibull(u)))`,
returned as an integer (`astype(jnp.int32)`). -/
noncomputable def sample (alpha beta eps u : ℝ) : ℤ :=
  max 1 (jnpRound (inverse_discrete_weibull alpha beta eps u))

/-- Survival function in the spec's words: `S(k) = exp(-((k+eps)/scale)^shape)`. -/
noncomputable def S (alpha beta eps k : ℝ) : ℝ :=
  Real.exp (-(((k + eps) / alpha) ^ beta))

/-- Partial mass sum over the support, `Σ_{k=1}^{K} exp(log_prob(k))`. -/
noncomputable def pmf_sum (alpha beta eps : ℝ) (K : ℕ) : ℝ :=
  ∑ k in Finset.Icc 1 K, Real.exp (log_prob alpha beta eps (k : ℝ))

/-- Error taxonomy of the spec (section 7). -/
inductive ParamError where
  | invalidParameter
  | domainError

/-- Modelled from the spec: validated construction. The numpyro base
`Distribution.__init__` that enforces `arg_constraints` when validation is
enabled is library code, not part of this repository; the source declares
`arg_constraints` mapping `alpha` and `beta` to `constraints.positive`
(lines 45-48), and the spec states that a non-positive `scale`/`shape`
must fail at construction with `InvalidParameterError`. -/
noncomputable def mkDiscreteWeibull (alpha beta eps : ℝ) : Except ParamError (ℝ × ℝ × ℝ) :=
  if 0 < alpha ∧ 0 < beta then .ok (alpha, beta, eps) else .error .invalidParameter

/-- Result of calling `cdf` in the source: there is no support check and no
error branch in `DiscreteWeibull.cdf` (lines 104-108), so every input is
mapped to the numeric value of the formula. -/
noncomputable def cdf_result (alpha beta value : ℝ) : Except ParamError ℝ :=
  .ok (cdf alpha beta value)

/-- Modelled from the spec's words for comparison with `cdf_result`:
the spec's `cumulative` raises `DomainError` for values outside the
declared support (k < 1). -/
noncomputable def cdf_spec (alpha beta value : ℝ) : Except ParamError ℝ :=
  if value < 1 then .error .domainError else .ok (cdf alpha beta value)

end DiscreteWeibull

namespace RegistrationModel

/-- Embedding of the local variable `log_survival_at_T_max` and the factor
`censored_clients_loglik_factor` of `registration_model_N_random`
(source lines 233-242): `N_extra * (-(T_max / wb_scale) ** wb_concentration)`. -/
noncomputable def censored_clients_loglik_factor
    (N_extra : ℕ) (T_max wb_scale wb_concentration : ℝ) : ℝ :=
  (N_extra : ℝ) * (-((T_max / wb_scale) ^ wb_concentration))

/-- Survival function in the spec's words:
`log_survival(t) = -(t/time_scale)^time_shape`. -/
noncomputable def log_survival (time_scale time_shape t : ℝ) : ℝ :=
  -((t / time_scale) ^ time_shape)

/-- Embedding of `jax.scipy.special.gammaln`: the logarithm of the Gamma
function (its values on the positive reals are all this file uses). -/
noncomputable def gammaln (x : ℝ) : ℝ := Real.log (Real.Gamma x)

/-- Embedding of `log_binom_coeff` of `registration_model_N_random`
(source lines 244-252): with `N_total = M_observed + N_extra`,
`gammaln(N_total + 1.0) - (gammaln(M_observed + 1.0) + gammaln(N_extra + 1.0))`. -/
noncomputable def log_binom_coeff (M_observed N_extra : ℕ) : ℝ :=
  gammaln (((M_observed + N_extra : ℕ) : ℝ) + 1) -
    (gammaln ((M_observed : ℝ) + 1) + gammaln ((N_extra : ℝ) + 1))

end RegistrationModel

namespace DiscreteWeibull

lemma log_prob_eq_log_max (alpha beta eps value : ℝ) :
    log_prob alpha beta eps value
      = Real.log (max (S alpha beta eps value - S alpha beta eps (value + 1)) eps) := by
  have h : value + eps + 1 = value + 1 + eps := by ring
  simp only [log_prob, S, h]

/-- Claim C1: for strictly positive `scale`, `shape`, floor `eps` and a support
value `k ≥ 1`, `log_prob` returns `log(max(S(k) - S(k+1), eps))` where
`S(x) = exp(-((x+eps)/scale)^shape)`, and the returned value is at least
`log eps`, hence finite (never negative infinity), with no error branch. -/
theorem c1_log_prob_clipped_and_finite (alpha beta eps k : ℝ)
    (halpha : 0 < alpha) (hbeta : 0 < beta) (heps : 0 < eps) (hk : 1 ≤ k) :
    log_prob alpha beta eps k
      = Real.log (max (S alpha beta eps k - S alpha beta eps (k + 1)) eps) ∧
    Real.log eps ≤ log_prob alpha beta eps k := by
  refine ⟨log_prob_eq_log_max alpha beta eps k, ?_⟩
  rw [log_prob_eq_log_max]
  exact Real.log_le_log heps (le_max_right _ _)

/-- Witness for claim C1: the theorem instantiated at scale=1, shape=1, eps=1/2, k=1. -/
theorem c1_witness :
    log_prob 1 1 (1/2) 1
      = Real.log (max (S 1 1 (1/2) 1 - S 1 1 (1/2) (1 + 1)) (1/2)) ∧
    Real.log (1/2) ≤ log_prob 1 1 (1/2) 1 :=
  c1_log_prob_clipped_and_finite 1 1 (1/2) 1 (by norm_num) (by norm_num)
    (by norm_num) (by norm_num)

/-- Claim C7: for every uniform draw `u ∈ (0,1)` and positive parameters, `sample`
returns an integer value at least 1: the rounded inverse-CDF value is floored
at 1, so no sample falls below the `k ≥ 1` support. -/
theorem c7_sample_at_least_one (alpha beta eps u : ℝ)
    (halpha : 0 < alpha) (hbeta : 0 < beta) (heps : 0 < eps)
    (hu : u ∈ Set.Ioo (0 : ℝ) 1) :
    1 ≤ sample alpha beta eps u :=
  le_max_left _ _

/-- Witness for claim C7: the theorem instantiated at scale=1, shape=1, eps=1/2, u=1/2. -/
theorem c7_witness : 1 ≤ sample 1 1 (1/2) (1/2) :=
  c7_sample_at_least_one 1 1 (1/2) (1/2) (by norm_num) (by norm_num) (by norm_num)
    (by constructor <;> norm_num)

/-- Claim C8: construction returns `InvalidParameterError` exactly when `scale ≤ 0`
or `shape ≤ 0`, and succeeds exactly when both are strictly positive: the
positivity invariant is enforced by the constructor itself. -/
theorem c8_construction_validates (alpha beta eps : ℝ) :
    (mkDiscreteWeibull alpha beta eps = .error .invalidParameter ↔ alpha ≤ 0 ∨ beta ≤ 0) ∧
    (mkDiscreteWeibull alpha beta eps = .ok (alpha, beta, eps) ↔ 0 < alpha ∧ 0 < beta) := by
  by_cases h : 0 < alpha ∧ 0 < beta
  · rw [mkDiscreteWeibull, if_pos h]
    constructor
    · constructor
      · intro hmk; simp at hmk
      · intro hle
        cases hle with
        | inl h1 => exact absurd h.1 (not_lt.mpr h1)
        | inr h1 => exact absurd h.2 (not_lt.mpr h1)
    · exact ⟨fun _ => h, fun _ => rfl⟩
  · rw [mkDiscreteWeibull, if_neg h]
    rw [not_and_or, not_lt, not_lt] at h
    constructor
    · exact ⟨fun _ => h, fun _ => rfl⟩
    · constructor
      · intro hmk; simp at hmk
      · intro hpos
        cases h with
        | inl h1 => exact absurd hpos.1 (not_lt.mpr h1)
        | inr h1 => exact absurd hpos.2 (not_lt.mpr h1)

/-- Witness for claim C8: construction with scale = -1 fails with InvalidParameterError,
and construction with scale = shape = 1 succeeds. -/
theorem c8_witness :
    mkDiscreteWeibull (-1) 2 0 = .error .invalidParameter ∧
    mkDiscreteWeibull 1 1 0 = .ok (1, 1, 0) :=
  ⟨(c8_construction_validates (-1) 2 0).1.mpr (Or.inl (by norm_num)),
   (c8_construction_validates 1 1 0).2.mpr (by norm_num)⟩

end DiscreteWeibull

namespace RegistrationModel

/-- Claim C4: in the log-joint of `registration_model_N_random`, the censoring
contribution equals `E * log_survival(horizon)` with
`log_survival(t) = -(t/time_scale)^time_shape`, and it is exactly 0 whenever
the latent extra count is 0, regardless of the horizon. -/
theorem c4_censoring_contribution (N_extra : ℕ) (T_max time_scale time_shape : ℝ)
    (hs : 0 < time_scale) (hsh : 0 < time_shape) :
    censored_clients_loglik_factor N_extra T_max time_scale time_shape
      = (N_extra : ℝ) * log_survival time_scale time_shape T_max ∧
    censored_clients_loglik_factor 0 T_max time_scale time_shape = 0 := by
  constructor
  · rfl
  · simp [censored_clients_loglik_factor]

/-- Witness for claim C4: the theorem instantiated at E=2, horizon=30, time_scale=20,
time_shape=3/2. -/
theorem c4_witness :
    censored_clients_loglik_factor 2 30 20 (3/2)
      = (2 : ℝ) * log_survival 20 (3/2) 30 ∧
    censored_clients_loglik_factor 0 30 20 (3/2) = 0 := by
  have h := c4_censoring_contribution 2 30 20 (3/2) (by norm_num) (by norm_num)
  simpa using h

/-- Claim C5: the combinatorial correction `lgamma(N+1) - lgamma(M+1) - lgamma(E+1)`
with `N = M + E` equals `log C(N, M)`, the log binomial coefficient, for every
observed count `M ≥ 0` and latent extra count `E ≥ 0`. -/
theorem c5_log_binom_coeff_eq_log_choose (M E : ℕ) :
    log_binom_coeff M E = Real.log ((M + E).choose M) := by
  have hM : M ≤ M + E := Nat.le_add_right M E
  have h := Nat.choose_mul_factorial_mul_factorial hM
  rw [Nat.add_sub_cancel_left] at h
  have hfac : ((Nat.factorial (M + E) : ℕ) : ℝ)
      = ((M + E).choose M : ℝ) * ((Nat.factorial M : ℝ) * (Nat.factorial E : ℝ)) := by
    rw [← h]; push_cast; ring
  have hchoose : ((M + E).choose M : ℝ) ≠ 0 := by
    exact_mod_cast (Nat.choose_pos hM).ne'
  have hMfac : (Nat.factorial M : ℝ) ≠ 0 := by exact_mod_cast (Nat.factorial_pos M).ne'
  have hEfac : (Nat.factorial E : ℝ) ≠ 0 := by exact_mod_cast (Nat.factorial_pos E).ne'
  unfold log_binom_coeff gammaln
  rw [Real.Gamma_nat_eq_factorial (M + E), Real.Gamma_nat_eq_factorial M,
    Real.Gamma_nat_eq_factorial E, hfac,
    Real.log_mul hchoose (mul_ne_zero hMfac hEfac), Real.log_mul hMfac hEfac]
  ring

end RegistrationModel

namespace DiscreteWeibull

lemma cdf_mono (alpha beta : ℝ) (halpha : 0 < alpha) (hbeta : 0 < beta)
    {x y : ℝ} (hx : -1 ≤ x) (hxy : x ≤ y) :
    cdf alpha beta x ≤ cdf alpha beta y := by
  unfold cdf
  have h0 : 0 ≤ (x + 1) / alpha := div_nonneg (by linarith) halpha.le
  have h1 : (x + 1) / alpha ≤ (y + 1) / alpha := by
    apply div_le_div_of_nonneg_right ?_ halpha.le
    · linarith
  have h2 : ((x + 1) / alpha) ^ beta ≤ ((y + 1) / alpha) ^ beta :=
    Real.rpow_le_rpow h0 h1 hbeta.le
  have h3 := Real.exp_le_exp.mpr (neg_le_neg h2)
  linarith

/-- Claim C6: for positive `scale` and `shape`, `cdf k` equals
`1 - exp(-((k+1)/scale)^shape)`, is monotone non-decreasing over the natural
numbers, `cdf 0` lies in `[0,1)`, every value stays strictly below 1, and the
values tend to 1 as `k` grows. -/
theorem c6_cdf_monotone_to_one (alpha beta : ℝ)
    (halpha : 0 < alpha) (hbeta : 0 < beta) :
    (∀ k : ℕ, cdf alpha beta k = 1 - Real.exp (-((((k : ℝ) + 1) / alpha) ^ beta))) ∧
    Monotone (fun k : ℕ => cdf alpha beta k) ∧
    cdf alpha beta 0 ∈ Set.Ico (0 : ℝ) 1 ∧
    (∀ k : ℕ, cdf alpha beta k < 1) ∧
    Tendsto (fun k : ℕ => cdf alpha beta k) atTop (nhds 1) := by
  have hlt1 : ∀ x : ℝ, cdf alpha beta x < 1 := by
    intro x
    unfold cdf
    have := Real.exp_pos (-(((x + 1) / alpha) ^ beta))
    linarith
  refine ⟨fun k => rfl, ?_, ⟨?_, ?_⟩, fun k => hlt1 k, ?_⟩
  · intro a b hab
    exact cdf_mono alpha beta halpha hbeta
      (le_trans (by norm_num) (Nat.cast_nonneg a)) (by exact_mod_cast hab)
  · unfold cdf
    have hb : (0 : ℝ) ≤ ((0 + 1) / alpha) ^ beta :=
      Real.rpow_nonneg (by positivity) beta
    have : Real.exp (-(((0 + 1) / alpha) ^ beta)) ≤ 1 := by
      rw [Real.exp_le_one_iff]
      linarith
    linarith
  · exact hlt1 0
  · have h1 : Tendsto (fun k : ℕ => ((k : ℝ) + 1) / alpha) atTop atTop := by
      apply Filter.Tendsto.atTop_div_const halpha
      exact tendsto_atTop_add_const_right _ 1 tendsto_natCast_atTop_atTop
    have h2 : Tendsto (fun k : ℕ => (((k : ℝ) + 1) / alpha) ^ beta) atTop atTop :=
      (tendsto_rpow_atTop hbeta).comp h1
    have h3 : Tendsto (fun k : ℕ => Real.exp (-((((k : ℝ) + 1) / alpha) ^ beta)))
        atTop (nhds 0) :=
      Real.tendsto_exp_atBot.comp (tendsto_neg_atTop_atBot.comp h2)
    have h4 := h3.const_sub 1
    simpa [cdf] using h4

/-- Witness for claim C6: the theorem instantiated at scale=1, shape=1. -/
theorem c6_witness :
    (∀ k : ℕ, cdf 1 1 k = 1 - Real.exp (-((((k : ℝ) + 1) / 1) ^ (1 : ℝ)))) ∧
    Monotone (fun k : ℕ => cdf 1 1 k) ∧
    cdf 1 1 0 ∈ Set.Ico (0 : ℝ) 1 ∧
    (∀ k : ℕ, cdf 1 1 k < 1) ∧
    Tendsto (fun k : ℕ => cdf 1 1 k) atTop (nhds 1) :=
  c6_cdf_monotone_to_one 1 1 (by norm_num) (by norm_num)

/-- Counterexample to claim C9: calling `cdf` at the out-of-support value k = 0 (with
scale=5, shape=1) does not raise: the source has no support check and returns
the numeric value `1 - exp(-1/5)`, whereas the spec's `cumulative` demands
`DomainError` there. -/
theorem c9_counterexample :
    cdf_result 5 1 0 = .ok (1 - Real.exp (-(1/5 : ℝ))) ∧
    cdf_spec 5 1 0 = .error .domainError ∧
    cdf_result 5 1 0 ≠ cdf_spec 5 1 0 := by
  have hval : cdf 5 1 0 = 1 - Real.exp (-(1/5 : ℝ)) := by
    unfold cdf
    norm_num [Real.rpow_one]
  refine ⟨?_, ?_, ?_⟩
  · rw [cdf_result, hval]
  · rw [cdf_spec, if_pos (by norm_num)]
  · rw [cdf_result, cdf_spec, if_pos (by norm_num)]
    simp

/-- Amendment of claim C9: neither `log_prob` nor `cdf` raises below the support. `cdf`
has no domain check at all: for `0 ≤ k < 1` it returns the numeric value of
its formula, which lies strictly inside `(0,1)`; `log_prob` likewise returns
a numeric value bounded below by `log eps` (at most a non-fatal warning is
emitted by the library's optional validation). -/
theorem c9_amended_no_domain_check (alpha beta eps value : ℝ)
    (halpha : 0 < alpha) (hbeta : 0 < beta) (heps : 0 < eps)
    (h0 : 0 ≤ value) (h1 : value < 1) :
    cdf_result alpha beta value = .ok (cdf alpha beta value) ∧
    0 < cdf alpha beta value ∧ cdf alpha beta value < 1 ∧
    Real.log eps ≤ log_prob alpha beta eps value := by
  refine ⟨rfl, ?_, ?_, ?_⟩
  · unfold cdf
    have hb : 0 < (value + 1) / alpha := div_pos (by linarith) halpha
    have hpow : 0 < ((value + 1) / alpha) ^ beta := Real.rpow_pos_of_pos hb beta
    have hexp : Real.exp (-(((value + 1) / alpha) ^ beta)) < 1 := by
      rw [Real.exp_lt_one_iff]
      linarith
    linarith
  · unfold cdf
    have := Real.exp_pos (-(((value + 1) / alpha) ^ beta))
    linarith
  · rw [log_prob_eq_log_max]
    exact Real.log_le_log heps (le_max_right _ _)

/-- Witness for the amendment of claim C9: the theorem instantiated at scale=5, shape=1,
eps=1/2, value=1/2. -/
theorem c9_amended_witness :
    cdf_result 5 1 (1/2) = .ok (cdf 5 1 (1/2)) ∧
    0 < cdf 5 1 (1/2) ∧ cdf 5 1 (1/2) < 1 ∧
    Real.log (1/2) ≤ log_prob 5 1 (1/2) (1/2) :=
  c9_amended_no_domain_check 5 1 (1/2) (1/2) (by norm_num) (by norm_num)
    (by norm_num) (by norm_num) (by norm_num)

/-- Claim C10: every real input `u` to the inverse-transform path — including
values outside `(0,1)` — is first clipped into `[eps, 1-eps]`, so the
argument of the logarithm `1 - p_clipped` is strictly positive and the
computation is total, with no reachable error branch. -/
theorem c10_clip_makes_log_safe (alpha beta eps u : ℝ)
    (heps : 0 < eps) (heps2 : eps < 1/2) :
    eps ≤ clip u eps (1 - eps) ∧
    clip u eps (1 - eps) ≤ 1 - eps ∧
    0 < 1 - clip u eps (1 - eps) ∧
    inverse_discrete_weibull alpha beta eps u
      = alpha * (-Real.log (1 - clip u eps (1 - eps))) ^ (1 / beta) - 1 := by
  have hle : eps ≤ 1 - eps := by linarith
  have hmin : clip u eps (1 - eps) ≤ 1 - eps := min_le_left _ _
  refine ⟨le_min hle (le_max_left _ _), hmin, by linarith, rfl⟩

/-- Witness for claim C10: the theorem instantiated at scale=1, shape=1, eps=1/4 and
the out-of-range draw u=2. -/
theorem c10_witness :
    (1/4 : ℝ) ≤ clip 2 (1/4) (1 - 1/4) ∧
    clip 2 (1/4) (1 - 1/4) ≤ 1 - 1/4 ∧
    0 < 1 - clip 2 (1/4) (1 - 1/4) ∧
    inverse_discrete_weibull 1 1 (1/4) 2
      = 1 * (-Real.log (1 - clip 2 (1/4) (1 - 1/4))) ^ ((1 : ℝ) / 1) - 1 :=
  c10_clip_makes_log_safe 1 1 (1/4) 2 (by norm_num) (by norm_num)

end DiscreteWeibull

namespace DiscreteWeibull

lemma abs_jnpRound_sub_le (x : ℝ) : |((jnpRound x : ℤ) : ℝ) - x| ≤ 1 / 2 := by
  unfold jnpRound
  by_cases h : Int.fract x = 1 / 2
  · have hf : Int.fract x = x - ⌊x⌋ := rfl
    rw [hf] at h
    have hx : x = (⌊x⌋ : ℝ) + 1 / 2 := by linarith
    rw [if_pos (by rw [hf]; linarith)]
    by_cases he : Even ⌊x⌋
    · rw [if_pos he]
      have heq : ((⌊x⌋ : ℤ) : ℝ) - x = -(1 / 2) := by linarith
      rw [heq, abs_neg, abs_of_pos (by norm_num : (0:ℝ) < 1 / 2)]
    · rw [if_neg he]
      have heq : ((⌊x⌋ + 1 : ℤ) : ℝ) - x = 1 / 2 := by push_cast; linarith
      rw [heq, abs_of_pos (by norm_num : (0:ℝ) < 1 / 2)]
  · rw [if_neg h, abs_sub_comm]
    exact abs_sub_round x

lemma exp_neg_le_inv {x c : ℝ} (hc : 0 < c) (h : c ≤ Real.exp x) :
    Real.exp (-x) ≤ c⁻¹ := by
  rw [Real.exp_neg]
  exact inv_anti₀ hc h

lemma inv_le_exp_neg {x c : ℝ} (h : Real.exp x ≤ c) :
    c⁻¹ ≤ Real.exp (-x) := by
  rw [Real.exp_neg]
  exact inv_anti₀ (Real.exp_pos x) h

lemma exp_log_prob (alpha beta eps value : ℝ) (heps : 0 < eps) :
    Real.exp (log_prob alpha beta eps value)
      = max (S alpha beta eps value - S alpha beta eps (value + 1)) eps := by
  rw [log_prob_eq_log_max, Real.exp_log (lt_of_lt_of_le heps (le_max_right _ _))]

lemma sum_S_sub_telescope (alpha beta eps : ℝ) (K : ℕ) :
    ∑ k in Finset.Icc 1 K, (S alpha beta eps (k : ℝ) - S alpha beta eps ((k : ℝ) + 1))
      = S alpha beta eps 1 - S alpha beta eps ((K : ℝ) + 1) := by
  rw [← Nat.Ico_succ_right, Finset.sum_Ico_eq_sum_range]
  have hcongr : ∀ i ∈ Finset.range (K + 1 - 1),
      S alpha beta eps ((1 + i : ℕ) : ℝ) - S alpha beta eps (((1 + i : ℕ) : ℝ) + 1)
        = (fun n : ℕ => S alpha beta eps ((n : ℝ) + 1)) i
          - (fun n : ℕ => S alpha beta eps ((n : ℝ) + 1)) (i + 1) := by
    intro i _
    have e1 : ((1 + i : ℕ) : ℝ) = (i : ℝ) + 1 := by push_cast; ring
    have e2 : (((1 + i : ℕ) : ℝ) + 1) = ((i + 1 : ℕ) : ℝ) + 1 := by push_cast; ring
    rw [e2, e1]
  rw [Finset.sum_congr rfl hcongr, Finset.sum_range_sub']
  norm_num

/-- Amendment of claim C2: whenever no term needs the floor at `eps` (the pmf exceeds
`eps` on 1..K), the partial mass sum `Σ_{k=1}^{K} exp(log_prob(k))`
telescopes exactly to `S(1) - S(K+1)` with `S(x) = exp(-((x+eps)/scale)^shape)`
— i.e. it approaches `cumulative(K) - cumulative(0)` (up to the `eps` shift),
not `cumulative(K)`. -/
theorem c2_amended_mass_telescopes (alpha beta eps : ℝ) (K : ℕ) (heps : 0 < eps)
    (hclip : ∀ k ∈ Finset.Icc 1 K,
      eps ≤ S alpha beta eps (k : ℝ) - S alpha beta eps ((k : ℝ) + 1)) :
    pmf_sum alpha beta eps K = S alpha beta eps 1 - S alpha beta eps ((K : ℝ) + 1) := by
  unfold pmf_sum
  have h : ∀ k ∈ Finset.Icc 1 K, Real.exp (log_prob alpha beta eps (k : ℝ))
      = S alpha beta eps (k : ℝ) - S alpha beta eps ((k : ℝ) + 1) := by
    intro k hk
    rw [exp_log_prob alpha beta eps _ heps]
    exact max_eq_left (hclip k hk)
  rw [Finset.sum_congr rfl h, sum_S_sub_telescope]

/-- Witness for the amendment of claim C2: the theorem instantiated at scale=1, shape=1,
eps=1/100, K=1, where the single pmf term exceeds the floor. -/
theorem c2_amended_witness :
    pmf_sum 1 1 (1/100) 1 = S 1 1 (1/100) 1 - S 1 1 (1/100) (((1 : ℕ) : ℝ) + 1) := by
  apply c2_amended_mass_telescopes 1 1 (1/100) 1 (by norm_num)
  intro k hk
  have hk1 : k = 1 := by
    have := Finset.mem_Icc.mp hk
    omega
  subst hk1
  have hS1 : S 1 1 (1/100) ((1 : ℕ) : ℝ) = Real.exp (-(101/100 : ℝ)) := by
    unfold S
    rw [Real.rpow_one]
    norm_num
  have hS2 : S 1 1 (1/100) (((1 : ℕ) : ℝ) + 1) = Real.exp (-(201/100 : ℝ)) := by
    unfold S
    rw [Real.rpow_one]
    norm_num
  rw [hS1, hS2]
  have hsplit : Real.exp (-(201/100 : ℝ))
      = Real.exp (-(101/100 : ℝ)) * Real.exp (-(1 : ℝ)) := by
    rw [← Real.exp_add]; norm_num
  have he1 : Real.exp (-(1 : ℝ)) ≤ 1/2 := by
    have h3 : (2 : ℝ) ≤ Real.exp 1 := by
      have := Real.add_one_le_exp (1 : ℝ); linarith
    have := exp_neg_le_inv (by norm_num : (0:ℝ) < 2) h3
    norm_num at this
    linarith
  have he2 : (1/8 : ℝ) ≤ Real.exp (-(101/100 : ℝ)) := by
    have h4 : Real.exp (101/100 : ℝ) ≤ 8 := by
      have h5 : Real.exp (101/100 : ℝ) ≤ Real.exp 1 * Real.exp 1 := by
        rw [← Real.exp_add]
        exact Real.exp_le_exp.mpr (by norm_num)
      nlinarith [Real.exp_one_lt_d9, Real.exp_pos (1 : ℝ)]
    have := inv_le_exp_neg h4
    norm_num at this
    linarith
  have hepos : 0 < Real.exp (-(101/100 : ℝ)) := Real.exp_pos _
  rw [hsplit]
  nlinarith [he1, he2, hepos]

end DiscreteWeibull

namespace DiscreteWeibull

lemma S_one_shape_eq (alpha eps x : ℝ) :
    S alpha 1 eps x = Real.exp (-((x + eps) / alpha)) := by
  unfold S
  rw [Real.rpow_one]

/-- Counterexample to claim C2: at scale=5, shape=1, eps=1e-10, K=500, the partial
mass sum `Σ_{k=1}^{500} exp(log_prob(k))` stays below 5/6 + 5e-8 ≈ 0.8333,
while `cumulative(500)` exceeds 1 - 5/506 ≈ 0.9901: the gap exceeds 1/10,
far beyond any floating tolerance. The missing mass is `cumulative(0)`. -/
theorem c2_counterexample :
    1/10 < |pmf_sum 5 1 (1/10^10) 500 - cdf 5 1 500| := by
  set eps : ℝ := 1/10^10 with heps_def
  clear_value eps
  have heps : (0:ℝ) < eps := by norm_num [heps_def]
  have hterm : ∀ k ∈ Finset.Icc (1 : ℕ) 500, Real.exp (log_prob 5 1 eps (k : ℝ))
      ≤ (S 5 1 eps (k : ℝ) - S 5 1 eps ((k : ℝ) + 1)) + eps := by
    intro k _
    rw [exp_log_prob 5 1 eps _ heps]
    have hpos : 0 ≤ S 5 1 eps (k : ℝ) - S 5 1 eps ((k : ℝ) + 1) := by
      rw [S_one_shape_eq, S_one_shape_eq]
      have hmono : Real.exp (-(((k:ℝ) + 1 + eps) / 5)) ≤ Real.exp (-(((k:ℝ) + eps) / 5)) :=
        Real.exp_le_exp.mpr (by linarith)
      linarith
    exact max_le (le_add_of_nonneg_right heps.le) (le_add_of_nonneg_left hpos)
  have hsum1 : pmf_sum 5 1 eps 500
      ≤ ∑ k in Finset.Icc (1 : ℕ) 500, ((S 5 1 eps (k : ℝ) - S 5 1 eps ((k : ℝ) + 1)) + eps) := by
    unfold pmf_sum
    exact Finset.sum_le_sum hterm
  have hsplit : ∑ k in Finset.Icc (1 : ℕ) 500, ((S 5 1 eps (k : ℝ) - S 5 1 eps ((k : ℝ) + 1)) + eps)
      = (S 5 1 eps 1 - S 5 1 eps (((500 : ℕ) : ℝ) + 1)) + 500 * eps := by
    rw [Finset.sum_add_distrib, sum_S_sub_telescope]
    norm_num
  have hS1 : S 5 1 eps 1 ≤ 5/6 := by
    rw [S_one_shape_eq]
    have h1 : Real.exp (-((1 + eps) / 5)) ≤ Real.exp (-(1/5 : ℝ)) :=
      Real.exp_le_exp.mpr (by rw [heps_def]; norm_num)
    have h3 : (6/5 : ℝ) ≤ Real.exp (1/5) := by
      have := Real.add_one_le_exp (1/5 : ℝ); linarith
    have h2 := exp_neg_le_inv (by norm_num : (0:ℝ) < 6/5) h3
    norm_num at h2
    linarith
  have hS501 : 0 < S 5 1 eps (((500 : ℕ) : ℝ) + 1) := by
    rw [S_one_shape_eq]; exact Real.exp_pos _
  have hA : pmf_sum 5 1 eps 500 ≤ 5/6 + 500 * eps := by
    rw [hsplit] at hsum1
    linarith
  have hcdf : (1 : ℝ) - 5/506 ≤ cdf 5 1 500 := by
    unfold cdf
    rw [Real.rpow_one]
    have h3 : (506/5 : ℝ) ≤ Real.exp ((500 + 1) / 5) := by
      have := Real.add_one_le_exp ((500 + 1)/5 : ℝ); linarith
    have h2 := exp_neg_le_inv (by norm_num : (0:ℝ) < 506/5) h3
    norm_num at h2 ⊢
    linarith
  have hnum : (5/6 : ℝ) + 500 * eps < 1 - 5/506 - 1/10 := by
    rw [heps_def]; norm_num
  have hneg : pmf_sum 5 1 eps 500 - cdf 5 1 500 < 0 := by linarith
  rw [abs_of_neg hneg]
  linarith

/-- Amendment of claim C3: on draws `u ∈ [eps, 1-eps]` (where the clip is the identity)
the analytic inverse is exact — `cdf(k_continuous(u)) = u` — and when the
rounded value is already ≥ 1 (so the floor at 1 does not bind), the
round-trip lands within one rounding step: `cumulative(sample(u))` lies
between `cdf(k_continuous - 1/2)` and `cdf(k_continuous + 1/2)`. For small
`u` the floor at 1 binds and the round-trip fails (see the counterexample). -/
theorem c3_amended_round_trip (alpha beta eps u : ℝ)
    (halpha : 0 < alpha) (hbeta : 0 < beta) (heps : 0 < eps) (heps2 : eps < 1/2)
    (hu1 : eps ≤ u) (hu2 : u ≤ 1 - eps)
    (hround : 1 ≤ jnpRound (inverse_discrete_weibull alpha beta eps u)) :
    cdf alpha beta (inverse_discrete_weibull alpha beta eps u) = u ∧
    cdf alpha beta (inverse_discrete_weibull alpha beta eps u - 1/2)
        ≤ cdf alpha beta ((sample alpha beta eps u : ℤ) : ℝ) ∧
    cdf alpha beta ((sample alpha beta eps u : ℤ) : ℝ)
        ≤ cdf alpha beta (inverse_discrete_weibull alpha beta eps u + 1/2) := by
  have hclip : clip u eps (1 - eps) = u := by
    unfold clip
    rw [max_eq_right hu1, min_eq_right hu2]
  have h1u : 0 < 1 - u := by linarith
  have hlog : 0 ≤ -Real.log (1 - u) := by
    have := Real.log_nonpos (by linarith) (by linarith : 1 - u ≤ 1)
    linarith
  have hkc_eq : inverse_discrete_weibull alpha beta eps u
      = alpha * (-Real.log (1 - u)) ^ (1 / beta) - 1 := by
    unfold inverse_discrete_weibull
    rw [hclip]
  have hcdf_kc : cdf alpha beta (inverse_discrete_weibull alpha beta eps u) = u := by
    rw [hkc_eq]
    unfold cdf
    have h1 : alpha * (-Real.log (1 - u)) ^ (1 / beta) - 1 + 1
        = alpha * (-Real.log (1 - u)) ^ (1 / beta) := by ring
    rw [h1, mul_div_cancel_left₀ _ (ne_of_gt halpha), ← Real.rpow_mul hlog,
      one_div, inv_mul_cancel₀ (ne_of_gt hbeta), Real.rpow_one, neg_neg,
      Real.exp_log h1u]
    ring
  have habs := abs_jnpRound_sub_le (inverse_discrete_weibull alpha beta eps u)
  have hb := abs_le.mp habs
  have hs_eq : sample alpha beta eps u
      = jnpRound (inverse_discrete_weibull alpha beta eps u) := by
    unfold sample
    exact max_eq_right hround
  have hkc_ge : (1:ℝ) ≤ ((jnpRound (inverse_discrete_weibull alpha beta eps u) : ℤ) : ℝ) := by
    exact_mod_cast hround
  refine ⟨hcdf_kc, ?_, ?_⟩
  · rw [hs_eq]
    exact cdf_mono alpha beta halpha hbeta (by linarith [hb.2]) (by linarith [hb.1])
  · rw [hs_eq]
    exact cdf_mono alpha beta halpha hbeta (by linarith) (by linarith [hb.2])

/-- Witness for the amendment of claim C3: the theorem instantiated at scale=10, shape=1,
eps=1/4, u=1/2, where the rounded inverse-CDF value is 6 ≥ 1. -/
theorem c3_amended_witness :
    cdf 10 1 (inverse_discrete_weibull 10 1 (1/4) (1/2)) = 1/2 ∧
    cdf 10 1 (inverse_discrete_weibull 10 1 (1/4) (1/2) - 1/2)
        ≤ cdf 10 1 ((sample 10 1 (1/4) (1/2) : ℤ) : ℝ) ∧
    cdf 10 1 ((sample 10 1 (1/4) (1/2) : ℤ) : ℝ)
        ≤ cdf 10 1 (inverse_discrete_weibull 10 1 (1/4) (1/2) + 1/2) := by
  apply c3_amended_round_trip 10 1 (1/4) (1/2) (by norm_num) (by norm_num)
    (by norm_num) (by norm_num) (by norm_num) (by norm_num)
  have hkc : inverse_discrete_weibull 10 1 (1/4) (1/2) = 10 * Real.log 2 - 1 := by
    unfold inverse_discrete_weibull clip
    rw [max_eq_right (by norm_num : (1/4 : ℝ) ≤ 1/2),
      min_eq_right (by norm_num : (1/2 : ℝ) ≤ 1 - 1/4)]
    show (10 : ℝ) * (-Real.log (1 - 1/2)) ^ ((1 : ℝ) / 1) - 1 = 10 * Real.log 2 - 1
    rw [show (1 : ℝ) - 1/2 = 2⁻¹ by norm_num, Real.log_inv, neg_neg,
      show (1 : ℝ) / 1 = 1 by norm_num, Real.rpow_one]
  rw [hkc]
  have habs := abs_jnpRound_sub_le (10 * Real.log 2 - 1)
  have hb := (abs_le.mp habs).1
  have hlog2 : (0.6931471803 : ℝ) < Real.log 2 := Real.log_two_gt_d9
  have h2 : (1:ℝ) < ((jnpRound (10 * Real.log 2 - 1) : ℤ) : ℝ) := by linarith
  exact_mod_cast h2.le

end DiscreteWeibull

namespace DiscreteWeibull

/-- Counterexample to claim C3: at scale=5, shape=1, eps=1e-10 and the uniform draw
u = 1/100, the continuous inverse-CDF value is ≈ -0.95, rounds to -1, and
the floor at 1 forces sample(u) = 1; then |cumulative(sample(u)) - u|
≈ 0.32 exceeds cumulative(1) - cumulative(0) ≈ 0.15, a whole integer step
of the CDF at the returned point — beyond one unit of rounding error. -/
theorem c3_counterexample :
    sample 5 1 (1/10^10) (1/100) = 1 ∧
    cdf 5 1 1 - cdf 5 1 0 < |cdf 5 1 ((sample 5 1 (1/10^10) (1/100) : ℤ) : ℝ) - 1/100| := by
  have hclip : clip (1/100) (1/10^10) (1 - 1/10^10) = 1/100 := by
    unfold clip
    rw [max_eq_right (by norm_num), min_eq_right (by norm_num)]
  have hkc_eq : inverse_discrete_weibull 5 1 (1/10^10) (1/100)
      = 5 * (-Real.log (1 - 1/100)) - 1 := by
    unfold inverse_discrete_weibull
    rw [hclip]
    show (5 : ℝ) * (-Real.log (1 - 1/100)) ^ ((1 : ℝ) / 1) - 1
      = 5 * (-Real.log (1 - 1/100)) - 1
    rw [show (1 : ℝ) / 1 = 1 by norm_num, Real.rpow_one]
  have hL1 : -Real.log (1 - 1/100) ≤ 1/99 := by
    have h := Real.log_le_sub_one_of_pos (show (0:ℝ) < (99/100)⁻¹ by norm_num)
    rw [Real.log_inv] at h
    norm_num at h ⊢
    linarith
  have hL2 : (1/100 : ℝ) ≤ -Real.log (1 - 1/100) := by
    have h := Real.log_le_sub_one_of_pos (show (0:ℝ) < 99/100 by norm_num)
    norm_num at h ⊢
    linarith
  have hkc_lb : -(19/20 : ℝ) ≤ inverse_discrete_weibull 5 1 (1/10^10) (1/100) := by
    rw [hkc_eq]; linarith
  have hkc_ub : inverse_discrete_weibull 5 1 (1/10^10) (1/100) ≤ 5/99 - 1 := by
    rw [hkc_eq]; linarith
  have hfloor : ⌊inverse_discrete_weibull 5 1 (1/10^10) (1/100)⌋ = -1 := by
    rw [Int.floor_eq_iff]
    constructor
    · push_cast; linarith
    · push_cast; linarith
  have hfract : ¬ (Int.fract (inverse_discrete_weibull 5 1 (1/10^10) (1/100)) = 1/2) := by
    have hf : Int.fract (inverse_discrete_weibull 5 1 (1/10^10) (1/100))
        = inverse_discrete_weibull 5 1 (1/10^10) (1/100) - (-1 : ℤ) := by
      rw [Int.fract, hfloor]
    rw [hf]
    push_cast
    intro hcon
    linarith
  have hround_kc : jnpRound (inverse_discrete_weibull 5 1 (1/10^10) (1/100)) = -1 := by
    unfold jnpRound
    rw [if_neg hfract, round_eq, Int.floor_eq_iff]
    constructor
    · push_cast; linarith
    · push_cast; linarith
  have hsample : sample 5 1 (1/10^10) (1/100) = 1 := by
    unfold sample
    rw [hround_kc]
    decide
  refine ⟨hsample, ?_⟩
  rw [hsample]
  have hc1 : cdf 5 1 ((1 : ℤ) : ℝ) = 1 - Real.exp (-(2/5 : ℝ)) := by
    unfold cdf
    rw [show (((1 : ℤ) : ℝ) + 1) / 5 = (2/5 : ℝ) by push_cast; ring, Real.rpow_one]
  have hc1' : cdf 5 1 (1 : ℝ) = 1 - Real.exp (-(2/5 : ℝ)) := by
    unfold cdf
    rw [show ((1 : ℝ) + 1) / 5 = (2/5 : ℝ) by ring, Real.rpow_one]
  have hc0 : cdf 5 1 (0 : ℝ) = 1 - Real.exp (-(1/5 : ℝ)) := by
    unfold cdf
    rw [show ((0 : ℝ) + 1) / 5 = (1/5 : ℝ) by ring, Real.rpow_one]
  have he5_lb : (4/5 : ℝ) ≤ Real.exp (-(1/5 : ℝ)) := by
    have := Real.add_one_le_exp (-(1/5) : ℝ); linarith
  have he5_ub : Real.exp (-(1/5 : ℝ)) ≤ 5/6 := by
    have h3 : (6/5 : ℝ) ≤ Real.exp (1/5) := by
      have := Real.add_one_le_exp (1/5 : ℝ); linarith
    have h2 := exp_neg_le_inv (by norm_num : (0:ℝ) < 6/5) h3
    norm_num at h2
    linarith
  have he25_ub : Real.exp (-(2/5 : ℝ)) ≤ 25/36 := by
    have h : Real.exp (-(2/5 : ℝ)) = Real.exp (-(1/5 : ℝ)) * Real.exp (-(1/5 : ℝ)) := by
      rw [← Real.exp_add]; norm_num
    rw [h]
    nlinarith [Real.exp_pos (-(1/5 : ℝ))]
  rw [hc1, hc1', hc0]
  have habs : |1 - Real.exp (-(2/5 : ℝ)) - 1/100| = 1 - Real.exp (-(2/5 : ℝ)) - 1/100 := by
    apply abs_of_nonneg
    linarith
  rw [habs]
  linarith

end DiscreteWeibull
